import Mathlib

/-! Shallow embedding of the Letter Boxed solver (`letterbox.h`, `letterbox.cpp`,
`word.h`, `letterboxedsolver.cpp`).

Modelling choices:
* C++ strings are modelled as `List Char`.
* `std::unordered_set<char>` is modelled as `Finset Char`.
* The word table `std::unordered_map<char, std::unordered_set<Word>>` is
  modelled as a function `Char → List Word`: the list records the set's
  iteration order for one key, an absent key is the empty list (looking up an
  absent key and iterating nothing is exactly what `generateSolutionsRec` does
  after its `count(last) == 0` guard).
* The `solutions` vector filled concurrently by the per-letter threads is
  modelled as the `Multiset` of all appended solutions: appends are serialized
  by `solutionsLock`, so the multiset of appended elements is well defined even
  though the order of appends is scheduling dependent.
* Each wall built by the `LetterBox` constructor is a separate heap allocation,
  so pointer equality of walls coincides with equality of wall numbers; the
  model therefore stores wall numbers where the C++ stores wall pointers.
-/

namespace LetterBoxed

/-- Constant `LetterBox::kNumWalls` (letterbox.cpp line 9). -/
def kNumWalls : Nat := 4

/-- Constant `LetterBox::kMinWordLength` (letterbox.cpp line 10). -/
def kMinWordLength : Nat := 3

/-- The `LetterBox` object, recorded by the letter string handed to its
constructor; the fields built by the constructor loop (`letterWalls`,
`letterToWall`, `letters`) are recovered by the definitions below. -/
structure LetterBox where
  input : List Char

/-- Constructor local `lettersPerWord = letters.size() / kNumWalls`. -/
def LetterBox.lettersPerWord (lb : LetterBox) : Nat :=
  lb.input.length / kNumWalls

/-- The contents of the wall allocated for `wallNum`: the constructor pushes
`letters[idx]` for `idx = wallNum * lettersPerWord + i`, `i < lettersPerWord`.
Every such `idx` is in bounds, so the `getD` default is never used. -/
def LetterBox.wallAt (lb : LetterBox) (wallNum : Nat) : List Char :=
  (List.range lb.lettersPerWord).map
    (fun i => lb.input.getD (wallNum * lb.lettersPerWord + i) 'A')

/-- Field `letterWalls`: the four walls in construction order. -/
def LetterBox.letterWalls (lb : LetterBox) : List (List Char) :=
  (List.range kNumWalls).map lb.wallAt

/-- Field `letters`: the set of all characters inserted by the constructor,
i.e. the characters of the four walls. -/
def LetterBox.letters (lb : LetterBox) : Finset Char :=
  ((List.range kNumWalls).flatMap lb.wallAt).toFinset

/-- Field `letterToWall`: the constructor assigns `letterToWall[c]` only when
the key is absent, walking walls in increasing `wallNum`, so a letter is mapped
to the first wall containing it (wall number standing for the wall pointer). -/
def LetterBox.letterToWall (lb : LetterBox) (c : Char) : Option Nat :=
  (List.range kNumWalls).find? (fun w => decide (c ∈ lb.wallAt w))

/-- `LetterBox::contains` (letterbox.cpp). -/
def LetterBox.contains (lb : LetterBox) (c : Char) : Bool :=
  decide (c ∈ lb.letters)

/-- `LetterBox::onSameWall`: false when either letter is unmapped, otherwise
pointer equality of the two walls, i.e. equality of wall numbers. -/
def LetterBox.onSameWall (lb : LetterBox) (a b : Char) : Bool :=
  match lb.letterToWall a, lb.letterToWall b with
  | some i, some j => decide (i = j)
  | _, _ => false

/-- `LetterBox::numLetters`. -/
def LetterBox.numLetters (lb : LetterBox) : Nat :=
  lb.letters.card

/-- The character loop of `LetterBox::canMakeWord`: at position `i` it fails if
`!contains(word[i])` or if `i > 0` and `onSameWall(word[i-1], word[i])`; the
`prev` argument carries `word[i-1]` (`none` at position 0). -/
def LetterBox.canMakeWordAux (lb : LetterBox) : Option Char → List Char → Bool
  | _, [] => true
  | prev, c :: rest =>
    if lb.contains c = false then false
    else
      match prev with
      | some p => if lb.onSameWall p c then false else lb.canMakeWordAux (some c) rest
      | none => lb.canMakeWordAux (some c) rest

/-- `LetterBox::canMakeWord`. -/
def LetterBox.canMakeWord (lb : LetterBox) (word : List Char) : Bool :=
  if word.length < kMinWordLength then false
  else lb.canMakeWordAux none word

/-- `struct Word` (word.h): a word is its text; `operator==` compares the text,
which is exactly structural equality here. -/
structure Word where
  content : List Char
deriving DecidableEq

/-- `Word::size`. -/
def Word.size (w : Word) : Nat := w.content.length

/-- Field `nUniqueLetters`, computed by the `Word` constructor as the size of
the `unordered_set` of the word's characters. -/
def Word.nUniqueLetters (w : Word) : Nat := w.content.toFinset.card

/-- `Word::operator[]` (word.h): `none` models the out-of-bounds branch, which
prints a message and terminates the process. -/
def Word.opIndex (w : Word) (index : Int) : Option Char :=
  if index < 0 then none else w.content[index.toNat]?

/-- The table `unordered_map<char, unordered_set<Word>>`, as the per-key
iteration sequence; absent keys give `[]`. -/
abbrev WordTable := Char → List Word

/-- One `wordsStartingWith[c].insert(w)` step: a no-op when the word is already
present (set semantics), otherwise the word joins the key's sequence. -/
def WordTable.insertWord (t : WordTable) (c : Char) (w : Word) : WordTable :=
  fun x => if x = c then (if w ∈ t c then t c else t c ++ [w]) else t x

/-- `buildFilteredWordList` (letterboxedsolver.cpp): for each dictionary line,
skip it unless `canMakeWord` holds, otherwise insert `Word(word)` under
`word[0]`. -/
def buildFilteredWordList (dict : List (List Char)) (lb : LetterBox) : WordTable :=
  dict.foldl
    (fun t word =>
      if lb.canMakeWord word then t.insertWord (word.getD 0 'A') ⟨word⟩ else t)
    (fun _ => [])

/-- `Solution = std::vector<std::string>`. -/
abbrev Solution := List (List Char)

/-- `generateSolutionsRec` (letterboxedsolver.cpp lines 258-286), returning the
list of solutions this branch appends, in append order.  The preallocated
`result` vector with its next unwritten slot `result.size() - nWords` is
modelled by the list of slots written so far, extended by `++ [word.content]`.
The `none` arm models the process exit inside `Word::operator[]`. -/
def generateSolutionsRec (lb : LetterBox) (t : WordTable) :
    Nat → Char → Finset Char → Solution → List Solution
  | 0, _, remaining, result => if remaining = ∅ then [result] else []
  | n + 1, last, remaining, result =>
    (t last).flatMap fun word =>
      if n + 1 = 1 ∧ remaining.card > word.nUniqueLetters then []
      else
        match word.opIndex ((word.size : Int) - 1) with
        | none => []
        | some lastCh =>
          generateSolutionsRec lb t n lastCh (remaining \ word.content.toFinset)
            (result ++ [word.content])

/-- `generateSolutionsRec` with the `nWords == 1` pruning line removed;
everything else is unchanged.  Used to state that the prune is a pure
optimization. -/
def generateSolutionsRecNoPrune (lb : LetterBox) (t : WordTable) :
    Nat → Char → Finset Char → Solution → List Solution
  | 0, _, remaining, result => if remaining = ∅ then [result] else []
  | n + 1, _last, remaining, result =>
    (t _last).flatMap fun word =>
      match word.opIndex ((word.size : Int) - 1) with
      | none => []
      | some lastCh =>
        generateSolutionsRecNoPrune lb t n lastCh (remaining \ word.content.toFinset)
          (result ++ [word.content])

/-- `generateSolutionsRec` with the bounds-checked `Word::operator[]` replaced
by a direct read of the word's last character; comparing it with the checked
version expresses that the out-of-bounds exit branch is dead code. -/
def generateSolutionsRecUnchecked (lb : LetterBox) (t : WordTable) :
    Nat → Char → Finset Char → Solution → List Solution
  | 0, _, remaining, result => if remaining = ∅ then [result] else []
  | n + 1, last, remaining, result =>
    (t last).flatMap fun word =>
      if n + 1 = 1 ∧ remaining.card > word.nUniqueLetters then []
      else
        generateSolutionsRecUnchecked lb t n (word.content.getLastD 'A')
          (remaining \ word.content.toFinset) (result ++ [word.content])

/-- The solutions appended by the thread spawned for starting letter `ch`:
`remaining` starts as the full letter set and `result` as the untouched
`Solution(nWords)` vector (no slot written yet). -/
def branchSolutions (lb : LetterBox) (t : WordTable) (nWords : Nat) (ch : Char) :
    List Solution :=
  generateSolutionsRec lb t nWords ch lb.letters []

/-- The contents of the shared `solutions` vector when the branch threads
happen to commit their appends in the branch order `order`. -/
def runSearch (lb : LetterBox) (t : WordTable) (nWords : Nat) (order : List Char) :
    List Solution :=
  order.flatMap (branchSolutions lb t nWords)

/-- `generateSolutions` (letterboxedsolver.cpp lines 240-256): one branch per
letter of `letterBox.getLetters()`, all appends merged; the multiset of
appended solutions is independent of thread scheduling. -/
def generateSolutions (lb : LetterBox) (nWords : Nat) (t : WordTable) :
    Multiset Solution :=
  lb.letters.val.bind fun ch => (branchSolutions lb t nWords ch : List Solution)

/-- `generateSolutionsRecNoPrune` run for every starting letter, merged, like
`generateSolutions`. -/
def generateSolutionsNoPrune (lb : LetterBox) (nWords : Nat) (t : WordTable) :
    Multiset Solution :=
  lb.letters.val.bind fun ch =>
    (generateSolutionsRecNoPrune lb t nWords ch lb.letters [] : List Solution)

/-- The word sequence `ws` can be typed starting from last character `c`: each
word begins with the character the previous word ended with. -/
def chainFrom (c : Char) : List (List Char) → Prop
  | [] => True
  | w :: rest => w.head? = some c ∧ chainFrom (w.getLastD 'A') rest

/-- A twelve-letter fixture puzzle (three letters per wall). -/
def sampleBox : LetterBox :=
  ⟨['A', 'B', 'C', 'D', 'E', 'F', 'G', 'H', 'I', 'J', 'K', 'L']⟩

/-- A four-letter fixture puzzle (one letter per wall). -/
def tinyBox : LetterBox := ⟨['A', 'B', 'C', 'D']⟩

/-- A one-word fixture dictionary for `tinyBox`. -/
def tinyDict : List (List Char) := [['A', 'B', 'C', 'D']]

/-- The guard of the reprompt loop in `getLettersFromUser`: an input line is
accepted exactly when `input.length() % kNumWalls == 0`. -/
def lettersInputAccepted (s : List Char) : Bool :=
  decide (s.length % kNumWalls = 0)

/-- The usual-arithmetic-conversion of the C++ `int n` to `unsigned int`
forced by comparing it against `minWords` / `maxWords`. -/
def toUnsignedInt (n : Int) : Nat :=
  (n % (2 ^ 32)).toNat

/-- Local `maxWords = letterBox.numLetters() / kMinWordLength` of
`getNumWordsFromUser`; the `size_t` quotient is stored in an `unsigned int`. -/
def LetterBox.maxWords (lb : LetterBox) : Nat :=
  (lb.numLetters / kMinWordLength) % 2 ^ 32

/-- The guard of the reprompt loop in `getNumWordsFromUser`: `n` is accepted
exactly when not (`n < minWords || n > maxWords`) with `minWords = 1`, the
comparisons converting `n` to unsigned. -/
def numWordsAccepted (lb : LetterBox) (n : Int) : Bool :=
  if toUnsignedInt n < 1 ∨ lb.maxWords < toUnsignedInt n then false else true

end LetterBoxed

namespace LetterBoxed

/-- Reading `lettersPerWord` consecutive characters of `l` starting at offset
`a` is the slice of `l` from `a` of that length, provided the reads stay in
bounds. -/
theorem map_range_getD (l : List Char) (d : Char) :
    ∀ (n a : Nat), a + n ≤ l.length →
      (List.range n).map (fun i => l.getD (a + i) d) = (l.drop a).take n := by
  intro n
  induction n with
  | zero => intro a _; simp
  | succ n ih =>
    intro a h
    rw [List.range_succ, List.map_append, ih a (by omega), List.take_succ]
    simp only [List.map_cons, List.map_nil]
    congr 1
    have hlt : a + n < l.length := by omega
    rw [List.getElem?_drop, List.getElem?_eq_getElem hlt]
    simp [List.getD_eq_getElem l d hlt, List.getElem?_eq_getElem hlt]

/-- Each wall pushed by the constructor is the corresponding contiguous slice
of the input string. -/
theorem wallAt_eq (lb : LetterBox) (w : Nat) (hw : w < kNumWalls) :
    lb.wallAt w = (lb.input.drop (w * lb.lettersPerWord)).take lb.lettersPerWord := by
  have hdiv : kNumWalls * lb.lettersPerWord ≤ lb.input.length := by
    rw [LetterBox.lettersPerWord, Nat.mul_comm]
    exact Nat.div_mul_le_self _ _
  have hstep : w * lb.lettersPerWord + lb.lettersPerWord ≤ kNumWalls * lb.lettersPerWord := by
    calc w * lb.lettersPerWord + lb.lettersPerWord
        = (w + 1) * lb.lettersPerWord := (Nat.succ_mul _ _).symm
      _ ≤ kNumWalls * lb.lettersPerWord := Nat.mul_le_mul_right _ hw
  exact map_range_getD lb.input 'A' lb.lettersPerWord (w * lb.lettersPerWord)
    (le_trans hstep hdiv)

/-- The four walls, concatenated in construction order, are the prefix of the
input that the constructor consumes. -/
theorem walls_concat (lb : LetterBox) :
    lb.wallAt 0 ++ (lb.wallAt 1 ++ (lb.wallAt 2 ++ lb.wallAt 3)) =
      lb.input.take (kNumWalls * lb.lettersPerWord) := by
  have h4 : kNumWalls * lb.lettersPerWord =
      lb.lettersPerWord + (lb.lettersPerWord + (lb.lettersPerWord + lb.lettersPerWord)) := by
    rw [kNumWalls]; ring
  rw [wallAt_eq lb 0 (by norm_num [kNumWalls]), wallAt_eq lb 1 (by norm_num [kNumWalls]),
      wallAt_eq lb 2 (by norm_num [kNumWalls]), wallAt_eq lb 3 (by norm_num [kNumWalls]),
      h4, List.take_add, List.take_add, List.take_add]
  simp [List.drop_drop]
  rw [show (2 : Nat) * lb.lettersPerWord = lb.lettersPerWord + lb.lettersPerWord by ring,
      show (3 : Nat) * lb.lettersPerWord
        = lb.lettersPerWord + lb.lettersPerWord + lb.lettersPerWord by ring]

/-- The constructor's letter set is the set of characters of the consumed
prefix of the input. -/
theorem letters_eq_take (lb : LetterBox) :
    lb.letters = (lb.input.take (kNumWalls * lb.lettersPerWord)).toFinset := by
  rw [LetterBox.letters, show List.range kNumWalls = [0, 1, 2, 3] from rfl]
  simp only [List.flatMap_cons, List.flatMap_nil, List.append_nil]
  rw [walls_concat]

/-- When the input length is exactly `4 * k`, each wall gets `k` letters. -/
theorem lettersPerWord_of_len (s : List Char) (k : Nat) (hlen : s.length = 4 * k) :
    (LetterBox.mk s).lettersPerWord = k := by
  simp only [LetterBox.lettersPerWord, kNumWalls]
  show s.length / 4 = k
  omega

/-- When the input length is exactly `4 * k`, the four walls concatenate back
to the whole input. -/
theorem walls_concat_of_len (s : List Char) (k : Nat) (hlen : s.length = 4 * k) :
    (LetterBox.mk s).wallAt 0 ++ ((LetterBox.mk s).wallAt 1 ++
      ((LetterBox.mk s).wallAt 2 ++ (LetterBox.mk s).wallAt 3)) = s := by
  rw [walls_concat (LetterBox.mk s), lettersPerWord_of_len s k hlen]
  show s.take (kNumWalls * k) = s
  rw [show kNumWalls * k = s.length by rw [hlen]; rfl, List.take_length]

/-- When the input length is exactly `4 * k`, every wall has length `k`. -/
theorem wallAt_length_of_len (s : List Char) (k : Nat) (hlen : s.length = 4 * k) :
    ∀ i < kNumWalls, ((LetterBox.mk s).wallAt i).length = k := by
  intro i hi
  rw [wallAt_eq _ i hi, lettersPerWord_of_len s k hlen, List.length_take, List.length_drop]
  show min k (s.length - i * k) = k
  have hi' : i < 4 := hi
  have : i * k + k ≤ 4 * k := by
    calc i * k + k = (i + 1) * k := (Nat.succ_mul _ _).symm
      _ ≤ 4 * k := Nat.mul_le_mul_right _ hi'
  omega

/-- C10: for every input letter string `s`, `LetterBox` construction completes
(the model is total, as the constructor has no failure path) and the resulting
letter set is exactly the set of the first `4 * (|s| / 4)` characters: a
length that is not a multiple of 4 silently loses its trailing characters, and
a length below 4 yields an empty letter set. -/
theorem C10_construction_total_truncates (s : List Char) :
    (LetterBox.mk s).letters = (s.take (4 * (s.length / 4))).toFinset ∧
    (s.length < 4 → (LetterBox.mk s).letters = ∅) := by
  have hto : (LetterBox.mk s).letters = (s.take (4 * (s.length / 4))).toFinset := by
    rw [letters_eq_take]
    rfl
  refine ⟨hto, fun hlt => ?_⟩
  rw [hto, Nat.div_eq_of_lt hlt]
  simp

/-- C4: on a duplicate-free letter string of length `4k`, the walls partition
the letter set: every letter of the string lies on exactly one wall,
`letterToWall` maps it to such a wall, each wall holds `k` letters, and the
puzzle's letter set is exactly the set of letters of the string. -/
theorem C4_walls_partition (s : List Char) (k : Nat) (hk : 1 ≤ k)
    (hlen : s.length = 4 * k) (hnd : s.Nodup) :
    (∀ c ∈ s, ∃! i, i < kNumWalls ∧ c ∈ (LetterBox.mk s).wallAt i) ∧
    (∀ c ∈ s, ∃ i, (LetterBox.mk s).letterToWall c = some i ∧ i < kNumWalls ∧
      c ∈ (LetterBox.mk s).wallAt i) ∧
    (∀ i < kNumWalls, ((LetterBox.mk s).wallAt i).length = k) ∧
    (∀ c, c ∈ (LetterBox.mk s).letters ↔ c ∈ s) := by
  have hcons := walls_concat_of_len s k hlen
  have hcount : ∀ c : Char,
      ((LetterBox.mk s).wallAt 0).count c + (((LetterBox.mk s).wallAt 1).count c +
        (((LetterBox.mk s).wallAt 2).count c + ((LetterBox.mk s).wallAt 3).count c)) ≤ 1 := by
    intro c
    have h1 := List.nodup_iff_count_le_one.mp hnd c
    rw [← hcons] at h1
    simpa [List.count_append] using h1
  have hdisj : ∀ i j, i < kNumWalls → j < kNumWalls → i ≠ j →
      ∀ c, c ∈ (LetterBox.mk s).wallAt i → c ∉ (LetterBox.mk s).wallAt j := by
    intro i j hi hj hne c hci hcj
    have hi' : i < 4 := hi
    have hj' : j < 4 := hj
    have h1 : 0 < ((LetterBox.mk s).wallAt i).count c := List.count_pos_iff.mpr hci
    have h2 : 0 < ((LetterBox.mk s).wallAt j).count c := List.count_pos_iff.mpr hcj
    have h3 := hcount c
    interval_cases i <;> interval_cases j <;> omega
  have hmem : ∀ c ∈ s, ∃ i, i < kNumWalls ∧ c ∈ (LetterBox.mk s).wallAt i := by
    intro c hc
    rw [← hcons] at hc
    rcases List.mem_append.mp hc with h | h
    · exact ⟨0, by norm_num [kNumWalls], h⟩
    rcases List.mem_append.mp h with h | h
    · exact ⟨1, by norm_num [kNumWalls], h⟩
    rcases List.mem_append.mp h with h | h
    · exact ⟨2, by norm_num [kNumWalls], h⟩
    · exact ⟨3, by norm_num [kNumWalls], h⟩
  refine ⟨?_, ?_, wallAt_length_of_len s k hlen, ?_⟩
  · intro c hc
    obtain ⟨i, hi, hci⟩ := hmem c hc
    refine ⟨i, ⟨hi, hci⟩, ?_⟩
    rintro j ⟨hj, hcj⟩
    by_contra hne
    exact hdisj j i hj hi hne c hcj hci
  · intro c hc
    obtain ⟨i, hi, hci⟩ := hmem c hc
    obtain ⟨j, hj⟩ : ∃ j, (List.range kNumWalls).find?
        (fun w => decide (c ∈ (LetterBox.mk s).wallAt w)) = some j := by
      apply Option.isSome_iff_exists.mp
      rw [List.find?_isSome]
      exact ⟨i, List.mem_range.mpr hi, by simpa using hci⟩
    refine ⟨j, hj, List.mem_range.mp (List.mem_of_find?_eq_some hj), ?_⟩
    simpa using List.find?_some hj
  · intro c
    rw [letters_eq_take, lettersPerWord_of_len s k hlen]
    show c ∈ (s.take (kNumWalls * k)).toFinset ↔ c ∈ s
    rw [show kNumWalls * k = s.length by rw [hlen]; rfl, List.take_length, List.mem_toFinset]

/-- C4 witness: the partition properties instantiated on the concrete
four-letter puzzle `"ABCD"` with `k = 1`. -/
theorem C4_walls_partition_witness :
    (1 ≤ 1 ∧ (['A', 'B', 'C', 'D'] : List Char).length = 4 * 1 ∧
      (['A', 'B', 'C', 'D'] : List Char).Nodup) ∧
    ((∀ c ∈ (['A', 'B', 'C', 'D'] : List Char), ∃! i, i < kNumWalls ∧
        c ∈ (LetterBox.mk ['A', 'B', 'C', 'D']).wallAt i) ∧
      (∀ c ∈ (['A', 'B', 'C', 'D'] : List Char), ∃ i,
        (LetterBox.mk ['A', 'B', 'C', 'D']).letterToWall c = some i ∧ i < kNumWalls ∧
        c ∈ (LetterBox.mk ['A', 'B', 'C', 'D']).wallAt i) ∧
      (∀ i < kNumWalls, ((LetterBox.mk ['A', 'B', 'C', 'D']).wallAt i).length = 1) ∧
      (∀ c, c ∈ (LetterBox.mk ['A', 'B', 'C', 'D']).letters ↔
        c ∈ (['A', 'B', 'C', 'D'] : List Char))) :=
  ⟨⟨le_refl 1, by decide, by decide⟩,
    C4_walls_partition ['A', 'B', 'C', 'D'] 1 (le_refl 1) (by decide) (by decide)⟩

/-- C5 counterexample: constructing from the length-5 string `"ABCDE"` (not a
multiple of 4) does not fail — there is no `InvalidPuzzle` error anywhere in
the code and the constructor is total — it yields a fully formed puzzle with
walls `[A],[B],[C],[D]` and the trailing `E` dropped.  Moreover the input
loop's acceptance guard (the only length validation in the program) accepts
the empty string, whose length is not a *positive* multiple of 4. -/
theorem C5_counterexample :
    (LetterBox.mk ['A', 'B', 'C', 'D', 'E']).letters = ({'A', 'B', 'C', 'D'} : Finset Char) ∧
    (LetterBox.mk ['A', 'B', 'C', 'D', 'E']).letterWalls = [['A'], ['B'], ['C'], ['D']] ∧
    lettersInputAccepted [] = true :=
  ⟨by decide, by decide, by decide⟩

/-- C5 amended: `LetterBox` construction never fails; the interactive loop
(`getLettersFromUser`) accepts an input exactly when its length is a multiple
of `kNumWalls` (including length 0), and for every string whose length is a
positive multiple of 4 the construction partitions the letters into 4 equal
contiguous walls in input order. -/
theorem C5_amended_partition (s : List Char) (k : Nat) (hk : 1 ≤ k)
    (hlen : s.length = 4 * k) :
    lettersInputAccepted s = true ∧
    (LetterBox.mk s).wallAt 0 ++ ((LetterBox.mk s).wallAt 1 ++
      ((LetterBox.mk s).wallAt 2 ++ (LetterBox.mk s).wallAt 3)) = s ∧
    (∀ i < kNumWalls, ((LetterBox.mk s).wallAt i).length = k) ∧
    (∀ u : List Char, lettersInputAccepted u = true ↔ u.length % kNumWalls = 0) := by
  refine ⟨?_, walls_concat_of_len s k hlen, wallAt_length_of_len s k hlen, ?_⟩
  · simp [lettersInputAccepted, hlen, kNumWalls, Nat.mul_mod_right]
  · intro u
    simp [lettersInputAccepted]

/-- C5 witness: the amended statement instantiated on `"ABCDEFGH"`, `k = 2`. -/
theorem C5_amended_partition_witness :
    (1 ≤ 2 ∧ (['A', 'B', 'C', 'D', 'E', 'F', 'G', 'H'] : List Char).length = 4 * 2) ∧
    (lettersInputAccepted ['A', 'B', 'C', 'D', 'E', 'F', 'G', 'H'] = true ∧
      (LetterBox.mk ['A', 'B', 'C', 'D', 'E', 'F', 'G', 'H']).wallAt 0 ++
        ((LetterBox.mk ['A', 'B', 'C', 'D', 'E', 'F', 'G', 'H']).wallAt 1 ++
          ((LetterBox.mk ['A', 'B', 'C', 'D', 'E', 'F', 'G', 'H']).wallAt 2 ++
            (LetterBox.mk ['A', 'B', 'C', 'D', 'E', 'F', 'G', 'H']).wallAt 3)) =
        ['A', 'B', 'C', 'D', 'E', 'F', 'G', 'H'] ∧
      (∀ i < kNumWalls,
        ((LetterBox.mk ['A', 'B', 'C', 'D', 'E', 'F', 'G', 'H']).wallAt i).length = 2) ∧
      (∀ u : List Char, lettersInputAccepted u = true ↔ u.length % kNumWalls = 0)) :=
  ⟨⟨by decide, by decide⟩,
    C5_amended_partition ['A', 'B', 'C', 'D', 'E', 'F', 'G', 'H'] 2 (by decide) (by decide)⟩

/-- C7 counterexample: on the empty puzzle (reachable: the input loop accepts
the empty letter string), the maximum allowed word count
`letterCount() / kMinWordLength` is `0`, yet the word-count check rejects `0`
(the loop's lower bound is `minWords = 1`), so the check does not accept
`nWords` equal to that maximum. -/
theorem C7_counterexample :
    (LetterBox.mk []).numLetters / kMinWordLength = 0 ∧
    numWordsAccepted (LetterBox.mk [])
      (((LetterBox.mk []).numLetters / kMinWordLength : Nat) : Int) = false :=
  ⟨by decide, by decide⟩

/-- C7 amended: provided the puzzle has at least `kMinWordLength` letters (so
the maximum allowed word count is at least 1) and fewer than `2^31` letters
(always true of the C++ program, whose letters are single bytes), the check of
`getNumWordsFromUser` accepts the maximum `letterCount() / kMinWordLength`,
rejects the maximum plus one, and rejects every `int`-range value below 1; the
check runs before `generateSolutions` is dispatched in `main`. -/
theorem C7_amended_bounds (lb : LetterBox) (h3 : kMinWordLength ≤ lb.numLetters)
    (hsmall : lb.numLetters < 2 ^ 31) :
    numWordsAccepted lb ((lb.numLetters / kMinWordLength : Nat) : Int) = true ∧
    numWordsAccepted lb (((lb.numLetters / kMinWordLength : Nat) : Int) + 1) = false ∧
    (∀ n : Int, -(2 ^ 31) ≤ n → n < 1 → numWordsAccepted lb n = false) := by
  have h3' : 3 ≤ lb.numLetters := h3
  have hsmall' : lb.numLetters < 2147483648 := by
    have h := hsmall
    norm_num at h
    exact h
  have hm : lb.numLetters / kMinWordLength = lb.numLetters / 3 := rfl
  have hmax : lb.maxWords = lb.numLetters / 3 := by
    rw [LetterBox.maxWords, hm]
    apply Nat.mod_eq_of_lt
    have h1 : lb.numLetters / 3 ≤ lb.numLetters := Nat.div_le_self _ _
    have h2 : (2 ^ 32 : Nat) = 4294967296 := by norm_num
    omega
  refine ⟨?_, ?_, ?_⟩
  · have hcond : ¬(toUnsignedInt ((lb.numLetters / kMinWordLength : Nat) : Int) < 1 ∨
        lb.maxWords < toUnsignedInt ((lb.numLetters / kMinWordLength : Nat) : Int)) := by
      rw [toUnsignedInt, hmax, hm, show ((2 : Int) ^ 32) = 4294967296 by norm_num]
      omega
    rw [numWordsAccepted]
    exact if_neg hcond
  · have hcond : toUnsignedInt (((lb.numLetters / kMinWordLength : Nat) : Int) + 1) < 1 ∨
        lb.maxWords < toUnsignedInt (((lb.numLetters / kMinWordLength : Nat) : Int) + 1) := by
      rw [toUnsignedInt, hmax, hm, show ((2 : Int) ^ 32) = 4294967296 by norm_num]
      omega
    rw [numWordsAccepted]
    exact if_pos hcond
  · intro n hn1 hn2
    rw [show ((2 : Int) ^ 31) = 2147483648 by norm_num] at hn1
    have hcond : toUnsignedInt n < 1 ∨ lb.maxWords < toUnsignedInt n := by
      rw [toUnsignedInt, hmax, show ((2 : Int) ^ 32) = 4294967296 by norm_num]
      omega
    rw [numWordsAccepted]
    exact if_pos hcond

/-- C7 witness: the amended bounds instantiated on the twelve-letter fixture
puzzle, whose maximum allowed word count is `12 / 3 = 4`. -/
theorem C7_amended_bounds_witness :
    (kMinWordLength ≤ sampleBox.numLetters ∧ sampleBox.numLetters < 2 ^ 31) ∧
    (numWordsAccepted sampleBox ((sampleBox.numLetters / kMinWordLength : Nat) : Int) = true ∧
      numWordsAccepted sampleBox
        (((sampleBox.numLetters / kMinWordLength : Nat) : Int) + 1) = false ∧
      (∀ n : Int, -(2 ^ 31) ≤ n → n < 1 → numWordsAccepted sampleBox n = false)) :=
  ⟨⟨by decide, by decide⟩, C7_amended_bounds sampleBox (by decide) (by decide)⟩

/-- `contains` answers membership in the letter set. -/
theorem contains_iff (lb : LetterBox) (c : Char) :
    lb.contains c = true ↔ c ∈ lb.letters := by
  simp [LetterBox.contains]

/-- The character loop of `canMakeWord`, started with previous character `p`:
it succeeds exactly when every remaining character is a puzzle letter and no
two adjacent characters (including the pair `p`, head) share a wall. -/
theorem canMakeWordAux_some_iff (lb : LetterBox) :
    ∀ (cs : List Char) (p : Char),
      lb.canMakeWordAux (some p) cs = true ↔
        ((∀ c ∈ cs, c ∈ lb.letters) ∧
          List.Chain' (fun a b => lb.onSameWall a b = false) (p :: cs)) := by
  intro cs
  induction cs with
  | nil => intro p; simp [LetterBox.canMakeWordAux]
  | cons c rest ih =>
    intro p
    simp only [LetterBox.canMakeWordAux]
    by_cases hc : lb.contains c = true
    · have hcf : ¬(lb.contains c = false) := by simp [hc]
      rw [if_neg hcf]
      by_cases hw : lb.onSameWall p c = true
      · rw [if_pos hw]
        simp [List.chain'_cons, hw]
      · have hwf : lb.onSameWall p c = false := by simpa using hw
        rw [if_neg hw, ih c]
        have hcm : c ∈ lb.letters := (contains_iff lb c).mp hc
        simp only [List.chain'_cons, List.forall_mem_cons, hcm, hwf, true_and]
    · have hcc : lb.contains c = false := by simpa using hc
      rw [if_pos hcc]
      have hnm : c ∉ lb.letters := by
        rw [← contains_iff]
        simp [hcc]
      simp [List.forall_mem_cons, hnm]

/-- The character loop of `canMakeWord` from the start of the word. -/
theorem canMakeWordAux_none_iff (lb : LetterBox) (cs : List Char) :
    lb.canMakeWordAux none cs = true ↔
      ((∀ c ∈ cs, c ∈ lb.letters) ∧
        List.Chain' (fun a b => lb.onSameWall a b = false) cs) := by
  cases cs with
  | nil => simp [LetterBox.canMakeWordAux]
  | cons c rest =>
    simp only [LetterBox.canMakeWordAux]
    by_cases hc : lb.contains c = true
    · have hcf : ¬(lb.contains c = false) := by simp [hc]
      rw [if_neg hcf, canMakeWordAux_some_iff]
      have hcm : c ∈ lb.letters := (contains_iff lb c).mp hc
      simp [List.forall_mem_cons, hcm]
    · have hcc : lb.contains c = false := by simpa using hc
      rw [if_pos hcc]
      have hnm : c ∉ lb.letters := by
        rw [← contains_iff]
        simp [hcc]
      simp [List.forall_mem_cons, hnm]

/-- Full characterization of `canMakeWord`: the word is long enough, uses only
puzzle letters, and never puts two adjacent characters on one wall. -/
theorem canMakeWord_iff (lb : LetterBox) (word : List Char) :
    lb.canMakeWord word = true ↔
      (kMinWordLength ≤ word.length ∧ (∀ c ∈ word, c ∈ lb.letters) ∧
        List.Chain' (fun a b => lb.onSameWall a b = false) word) := by
  rw [LetterBox.canMakeWord]
  by_cases hlen : word.length < kMinWordLength
  · rw [if_pos hlen]
    simp [Nat.not_le.mpr hlen]
  · rw [if_neg hlen, canMakeWordAux_none_iff]
    simp [Nat.not_lt.mp hlen]

/-- C2: `isValidWord` (`canMakeWord`) returns false when the word is shorter
than `kMinWordLength = 3`, false when some character is outside the puzzle's
letter set, false when two adjacent characters lie on the same wall, and true
exactly when none of these conditions holds. -/
theorem C2_isValidWord_spec (lb : LetterBox) (word : List Char) :
    lb.canMakeWord word = true ↔
      (kMinWordLength ≤ word.length ∧ (∀ c ∈ word, c ∈ lb.letters) ∧
        List.Chain' (fun a b => lb.onSameWall a b = false) word) :=
  canMakeWord_iff lb word

/-- Words passing `canMakeWord` are at least `kMinWordLength` long. -/
theorem canMakeWord_length (lb : LetterBox) (w : List Char)
    (h : lb.canMakeWord w = true) : kMinWordLength ≤ w.length :=
  ((canMakeWord_iff lb w).mp h).1

/-- Words passing `canMakeWord` are nonempty. -/
theorem canMakeWord_ne_nil (lb : LetterBox) (w : List Char)
    (h : lb.canMakeWord w = true) : w ≠ [] := by
  have h3 := canMakeWord_length lb w h
  intro hw
  rw [hw] at h3
  simp [kMinWordLength] at h3

/-- Every character of a word passing `canMakeWord` is a puzzle letter. -/
theorem canMakeWord_mem_letters (lb : LetterBox) (w : List Char)
    (h : lb.canMakeWord w = true) : ∀ c ∈ w, c ∈ lb.letters :=
  ((canMakeWord_iff lb w).mp h).2.1

/-- Membership in the table after one set insertion. -/
theorem mem_insertWord (t : WordTable) (c0 : Char) (w0 w : Word) (c : Char) :
    w ∈ t.insertWord c0 w0 c ↔ (w ∈ t c ∨ (c = c0 ∧ w = w0)) := by
  simp only [WordTable.insertWord]
  by_cases hc : c = c0
  · subst hc
    by_cases hw : w0 ∈ t c
    · simp only [if_pos rfl, if_pos hw, true_and]
      constructor
      · exact Or.inl
      · rintro (h | rfl)
        · exact h
        · exact hw
    · simp [hw, List.mem_append]
  · simp [hc]

/-- A set insertion keeps every key's sequence duplicate-free. -/
theorem nodup_insertWord (t : WordTable) (c0 : Char) (w0 : Word)
    (h : ∀ c, (t c).Nodup) : ∀ c, ((t.insertWord c0 w0) c).Nodup := by
  intro c
  simp only [WordTable.insertWord]
  by_cases hc : c = c0
  · subst hc
    by_cases hw : w0 ∈ t c
    · simp [hw, h c]
    · rw [if_pos rfl, if_neg hw, List.nodup_append]
      refine ⟨h c, List.nodup_singleton w0, ?_⟩
      intro a ha hb
      rw [List.mem_singleton] at hb
      subst hb
      exact hw ha
  · simp [hc, h c]

/-- Membership after folding the dictionary into an arbitrary starting table:
a word is present under key `c` exactly when it was already there or it is a
valid dictionary word whose first character is `c`. -/
theorem mem_buildFold (lb : LetterBox) :
    ∀ (dict : List (List Char)) (t : WordTable) (c : Char) (w : Word),
      w ∈ (dict.foldl
        (fun t word =>
          if lb.canMakeWord word then t.insertWord (word.getD 0 'A') ⟨word⟩ else t) t) c ↔
        (w ∈ t c ∨
          (w.content ∈ dict ∧ lb.canMakeWord w.content = true ∧ w.content.getD 0 'A' = c)) := by
  intro dict
  induction dict with
  | nil => intro t c w; simp
  | cons d ds ih =>
    intro t c w
    rw [List.foldl_cons, ih]
    by_cases hd : lb.canMakeWord d = true
    · rw [if_pos hd, mem_insertWord]
      constructor
      · rintro ((h | ⟨hcd, rfl⟩) | ⟨hm, hcw, hgd⟩)
        · exact Or.inl h
        · exact Or.inr ⟨List.mem_cons_self d ds, hd, hcd.symm⟩
        · exact Or.inr ⟨List.mem_cons_of_mem d hm, hcw, hgd⟩
      · rintro (h | ⟨hm, hcw, hgd⟩)
        · exact Or.inl (Or.inl h)
        · rcases List.mem_cons.mp hm with hd2 | hm2
          · exact Or.inl (Or.inr ⟨by rw [← hgd, hd2], congrArg Word.mk hd2⟩)
          · exact Or.inr ⟨hm2, hcw, hgd⟩
    · rw [if_neg hd]
      constructor
      · rintro (h | ⟨hm, hcw, hgd⟩)
        · exact Or.inl h
        · exact Or.inr ⟨List.mem_cons_of_mem d hm, hcw, hgd⟩
      · rintro (h | ⟨hm, hcw, hgd⟩)
        · exact Or.inl h
        · rcases List.mem_cons.mp hm with hd2 | hm2
          · rw [hd2] at hcw
            exact absurd hcw hd
          · exact Or.inr ⟨hm2, hcw, hgd⟩

/-- Membership in the built catalog. -/
theorem mem_buildFilteredWordList (lb : LetterBox) (dict : List (List Char))
    (c : Char) (w : Word) :
    w ∈ buildFilteredWordList dict lb c ↔
      (w.content ∈ dict ∧ lb.canMakeWord w.content = true ∧ w.content.getD 0 'A' = c) := by
  have h := mem_buildFold lb dict (fun _ => []) c w
  simpa [buildFilteredWordList] using h

/-- Folding the dictionary keeps every key's sequence duplicate-free. -/
theorem nodup_buildFold (lb : LetterBox) :
    ∀ (dict : List (List Char)) (t : WordTable), (∀ c, (t c).Nodup) →
      ∀ c, ((dict.foldl
        (fun t word =>
          if lb.canMakeWord word then t.insertWord (word.getD 0 'A') ⟨word⟩ else t) t) c).Nodup := by
  intro dict
  induction dict with
  | nil => intro t ht c; simpa using ht c
  | cons d ds ih =>
    intro t ht c
    rw [List.foldl_cons]
    apply ih
    intro c2
    by_cases hd : lb.canMakeWord d = true
    · rw [if_pos hd]
      exact nodup_insertWord t _ _ ht c2
    · rw [if_neg hd]
      exact ht c2

/-- Every catalog word begins with its key. -/
theorem mem_build_head (lb : LetterBox) (dict : List (List Char)) (c : Char)
    (w : Word) (h : w ∈ buildFilteredWordList dict lb c) :
    lb.canMakeWord w.content = true ∧ w.content.head? = some c := by
  obtain ⟨_, hcw, hgd⟩ := (mem_buildFilteredWordList lb dict c w).mp h
  refine ⟨hcw, ?_⟩
  have hne := canMakeWord_ne_nil lb w.content hcw
  cases hcnt : w.content with
  | nil => exact absurd hcnt hne
  | cons a rest =>
    rw [hcnt] at hgd
    simp only [List.getD_cons_zero] at hgd
    rw [hgd]
    rfl

/-- C6: the catalog builder puts a raw word (as a `Word` value, deduplicated
by exact text) into the set under a letter `c` exactly when the word is a
dictionary word, `isValidWord` holds for it, and `c` is its first letter; each
per-letter set is duplicate-free. -/
theorem C6_buildFilteredWordList_spec (dict : List (List Char)) (lb : LetterBox)
    (c : Char) (w : Word) :
    (w ∈ buildFilteredWordList dict lb c ↔
      (w.content ∈ dict ∧ lb.canMakeWord w.content = true ∧
        w.content.head? = some c)) ∧
    (buildFilteredWordList dict lb c).Nodup := by
  constructor
  · rw [mem_buildFilteredWordList]
    constructor
    · rintro ⟨hm, hcw, hgd⟩
      refine ⟨hm, hcw, ?_⟩
      have hne := canMakeWord_ne_nil lb w.content hcw
      cases hcnt : w.content with
      | nil => exact absurd hcnt hne
      | cons a rest =>
        rw [hcnt] at hgd
        simp only [List.getD_cons_zero] at hgd
        rw [hgd]
        rfl
    · rintro ⟨hm, hcw, hh⟩
      refine ⟨hm, hcw, ?_⟩
      cases hcnt : w.content with
      | nil =>
        rw [hcnt] at hh
        simp at hh
      | cons a rest =>
        rw [hcnt] at hh
        simp only [List.head?_cons, Option.some.injEq] at hh
        simpa using hh
  · have h := nodup_buildFold lb dict (fun _ => []) (fun _ => List.nodup_nil) c
    simpa [buildFilteredWordList] using h

/-- On a nonempty word, `word[word.size() - 1]` takes the in-bounds branch and
reads the last character. -/
theorem opIndex_last (w : Word) (h : w.content ≠ []) :
    w.opIndex ((w.size : Int) - 1) = some (w.content.getLastD 'A') := by
  have hpos : 0 < w.content.length := List.length_pos.mpr h
  rw [Word.opIndex, Word.size, if_neg (by omega)]
  have htn : ((w.content.length : Int) - 1).toNat = w.content.length - 1 := by omega
  rw [htn, List.getElem?_eq_getElem (by omega)]
  have h1 : w.content.getLastD 'A' = w.content[w.content.length - 1] := by
    rw [List.getLastD_eq_getLast?, List.getLast?_eq_getElem?,
      List.getElem?_eq_getElem (by omega)]
    rfl
  rw [h1]

/-- A `chainFrom` sequence of nonempty words satisfies the pairwise chaining
relation: each word's last letter is the next word's first letter. -/
theorem chainFrom_chain' :
    ∀ (ws : List (List Char)) (c : Char), (∀ w ∈ ws, w ≠ []) → chainFrom c ws →
      List.Chain' (fun u v => u.getLast? = v.head?) ws := by
  intro ws
  induction ws with
  | nil => intro c _ _; simp
  | cons w rest ih =>
    intro c hne hch
    obtain ⟨hh, hrest⟩ := hch
    cases rest with
    | nil => simp
    | cons v rest2 =>
      obtain ⟨hh2, hrest2⟩ := hrest
      rw [List.chain'_cons]
      constructor
      · rw [hh2, List.getLastD_eq_getLast?]
        cases hwl : w.getLast? with
        | none => exact absurd (List.getLast?_eq_none_iff.mp hwl) (hne w (List.mem_cons_self _ _))
        | some x => rfl
      · exact ih (w.getLastD 'A') (fun u hu => hne u (List.mem_cons_of_mem _ hu)) ⟨hh2, hrest2⟩

/-- Invariant of `generateSolutionsRec` over any catalog whose words are valid
and grouped under their first letter: every solution the branch appends
extends the already-written slots by exactly `n` further words, chaining from
`last`, all individually valid, and jointly covering all of `remaining`. -/
theorem generateSolutionsRec_mem (lb : LetterBox) (t : WordTable)
    (hg : ∀ c wd, wd ∈ t c → lb.canMakeWord wd.content = true ∧ wd.content.head? = some c) :
    ∀ (n : Nat) (last : Char) (remaining : Finset Char) (result s : Solution),
      s ∈ generateSolutionsRec lb t n last remaining result →
      ∃ ws : List (List Char), s = result ++ ws ∧ ws.length = n ∧ chainFrom last ws ∧
        (∀ w ∈ ws, lb.canMakeWord w = true) ∧ remaining \ ws.flatten.toFinset = ∅ := by
  intro n
  induction n with
  | zero =>
    intro last remaining result s hs
    simp only [generateSolutionsRec] at hs
    by_cases hr : remaining = ∅
    · rw [if_pos hr, List.mem_singleton] at hs
      subst hs
      exact ⟨[], by simp, rfl, trivial, by simp, by simp [hr]⟩
    · rw [if_neg hr] at hs
      simp at hs
  | succ n ih =>
    intro last remaining result s hs
    simp only [generateSolutionsRec] at hs
    rw [List.mem_flatMap] at hs
    obtain ⟨word, hwt, hmem⟩ := hs
    obtain ⟨hcw, hhd⟩ := hg last word hwt
    have hne : word.content ≠ [] := canMakeWord_ne_nil lb word.content hcw
    rw [opIndex_last word hne] at hmem
    by_cases hp : n + 1 = 1 ∧ remaining.card > word.nUniqueLetters
    · rw [if_pos hp] at hmem
      simp at hmem
    · rw [if_neg hp] at hmem
      obtain ⟨ws, hsw, hlen, hchain, hvalid, hrem⟩ := ih _ _ _ _ hmem
      refine ⟨word.content :: ws, ?_, ?_, ⟨hhd, hchain⟩, ?_, ?_⟩
      · rw [hsw, List.append_assoc, List.singleton_append]
      · simp [hlen]
      · intro w hw
        rcases List.mem_cons.mp hw with rfl | hw2
        · exact hcw
        · exact hvalid w hw2
      · rw [List.flatten_cons, List.toFinset_append]
        rw [Finset.sdiff_eq_empty_iff_subset] at hrem ⊢
        intro x hx
        rw [Finset.mem_union]
        by_cases hxc : x ∈ word.content.toFinset
        · exact Or.inl hxc
        · exact Or.inr (hrem (Finset.mem_sdiff.mpr ⟨hx, hxc⟩))

/-- C1: over a catalog built by `buildFilteredWordList` for the same puzzle,
every solution the search appends has exactly `nWords` words, consecutive
words chain (word `i` ends with the letter word `i+1` starts with), and the
union of the letters of its words is exactly the puzzle's letter set;
moreover a branch appends a solution at budget 0 exactly when its uncovered
set is empty. -/
theorem C1_search_solutions_wellFormed (dict : List (List Char)) (lb : LetterBox)
    (nWords : Nat) (s : Solution)
    (hs : s ∈ generateSolutions lb nWords (buildFilteredWordList dict lb)) :
    s.length = nWords ∧
    List.Chain' (fun u v => u.getLast? = v.head?) s ∧
    s.flatten.toFinset = lb.letters ∧
    (∀ (t : WordTable) (last : Char) (remaining : Finset Char) (result r : Solution),
      r ∈ generateSolutionsRec lb t 0 last remaining result ↔
        (r = result ∧ remaining = ∅)) := by
  have hterm : ∀ (t : WordTable) (last : Char) (remaining : Finset Char) (result r : Solution),
      r ∈ generateSolutionsRec lb t 0 last remaining result ↔
        (r = result ∧ remaining = ∅) := by
    intro t last remaining result r
    simp only [generateSolutionsRec]
    by_cases hr : remaining = ∅
    · rw [if_pos hr]
      simp [hr]
    · rw [if_neg hr]
      simp [hr]
  rw [generateSolutions, Multiset.mem_bind] at hs
  obtain ⟨ch, _hch, hsm⟩ := hs
  rw [Multiset.mem_coe] at hsm
  obtain ⟨ws, hsw, hlen, hchain, hvalid, hrem⟩ :=
    generateSolutionsRec_mem lb _ (fun c wd h => mem_build_head lb dict c wd h)
      nWords ch lb.letters [] s hsm
  rw [List.nil_append] at hsw
  subst hsw
  refine ⟨hlen, ?_, ?_, hterm⟩
  · exact chainFrom_chain' s ch (fun w hw => canMakeWord_ne_nil lb w (hvalid w hw)) hchain
  · apply Finset.Subset.antisymm
    · intro x hx
      rw [List.mem_toFinset, List.mem_flatten] at hx
      obtain ⟨w, hw, hxw⟩ := hx
      exact canMakeWord_mem_letters lb w (hvalid w hw) x hxw
    · rw [← Finset.sdiff_eq_empty_iff_subset]
      exact hrem

/-- C1 witness: the single solution of the fixture search (`tinyBox`,
one-word dictionary, budget 1) satisfies all the well-formedness conjuncts. -/
theorem C1_search_solutions_wellFormed_witness :
    ([['A', 'B', 'C', 'D']] ∈
      generateSolutions tinyBox 1 (buildFilteredWordList tinyDict tinyBox)) ∧
    (([['A', 'B', 'C', 'D']] : Solution).length = 1 ∧
      List.Chain' (fun u v => u.getLast? = v.head?) ([['A', 'B', 'C', 'D']] : Solution) ∧
      ([['A', 'B', 'C', 'D']] : Solution).flatten.toFinset = tinyBox.letters ∧
      (∀ (t : WordTable) (last : Char) (remaining : Finset Char) (result r : Solution),
        r ∈ generateSolutionsRec tinyBox t 0 last remaining result ↔
          (r = result ∧ remaining = ∅))) :=
  ⟨by decide, C1_search_solutions_wellFormed tinyDict tinyBox 1 _ (by decide)⟩

/-- C3: the last-word prune never changes the produced solutions: for every
puzzle, catalog, budget and search state the pruned recursion returns exactly
the same solution list as the recursion with the prune removed, and the
orchestrated searches agree as well. -/
theorem C3_prune_is_sound (lb : LetterBox) (t : WordTable) :
    (∀ (n : Nat) (last : Char) (remaining : Finset Char) (result : Solution),
      generateSolutionsRec lb t n last remaining result =
        generateSolutionsRecNoPrune lb t n last remaining result) ∧
    (∀ nWords : Nat, generateSolutions lb nWords t = generateSolutionsNoPrune lb nWords t) := by
  have hrec : ∀ (n : Nat) (last : Char) (remaining : Finset Char) (result : Solution),
      generateSolutionsRec lb t n last remaining result =
        generateSolutionsRecNoPrune lb t n last remaining result := by
    intro n
    induction n with
    | zero => intro last remaining result; rfl
    | succ n ih =>
      intro last remaining result
      simp only [generateSolutionsRec, generateSolutionsRecNoPrune]
      congr 1
      funext word
      by_cases hp : n + 1 = 1 ∧ remaining.card > word.nUniqueLetters
      · rw [if_pos hp]
        obtain ⟨hn1, hcard⟩ := hp
        have hn0 : n = 0 := by omega
        subst hn0
        cases hop : word.opIndex ((word.size : Int) - 1) with
        | none => rfl
        | some lastCh =>
          simp only [generateSolutionsRecNoPrune]
          rw [Word.nUniqueLetters] at hcard
          rw [if_neg]
          intro hempty
          have hsub := Finset.sdiff_eq_empty_iff_subset.mp hempty
          have := Finset.card_le_card hsub
          omega
      · rw [if_neg hp]
        cases hop : word.opIndex ((word.size : Int) - 1) with
        | none => rfl
        | some lastCh => exact ih lastCh _ _
  refine ⟨hrec, fun nWords => ?_⟩
  rw [generateSolutions, generateSolutionsNoPrune]
  exact congrArg (Multiset.bind lb.letters.val)
    (funext fun ch => congrArg (fun l : List Solution => (l : Multiset Solution))
      (hrec nWords ch lb.letters []))

/-- Over a catalog whose words all pass `canMakeWord`, the recursion never
reaches the out-of-bounds arm of `Word::operator[]`: it coincides with the
recursion whose bounds check is removed. -/
theorem generateSolutionsRec_eq_unchecked (lb : LetterBox) (t : WordTable)
    (hg : ∀ c wd, wd ∈ t c → lb.canMakeWord wd.content = true) :
    ∀ (n : Nat) (last : Char) (remaining : Finset Char) (result : Solution),
      generateSolutionsRec lb t n last remaining result =
        generateSolutionsRecUnchecked lb t n last remaining result := by
  intro n
  induction n with
  | zero => intro last remaining result; rfl
  | succ n ih =>
    intro last remaining result
    simp only [generateSolutionsRec, generateSolutionsRecUnchecked]
    apply List.flatMap_congr
    intro word hw
    have hne := canMakeWord_ne_nil lb word.content (hg last word hw)
    by_cases hp : n + 1 = 1 ∧ remaining.card > word.nUniqueLetters
    · rw [if_pos hp, if_pos hp]
    · rw [if_neg hp, if_neg hp, opIndex_last word hne]
      exact ih _ _ _

/-- C9: every word admitted to the catalog has length at least
`kMinWordLength`, so the chain-letter access `word[word.size() - 1]` is always
in bounds (it reads the last character), and consequently the search over a
built catalog is unchanged when the out-of-bounds exit branch of
`Word::operator[]` is removed: that branch is unreachable. -/
theorem C9_chain_letter_access_safe (dict : List (List Char)) (lb : LetterBox)
    (c : Char) (w : Word) (h : w ∈ buildFilteredWordList dict lb c) :
    kMinWordLength ≤ w.size ∧
    w.opIndex ((w.size : Int) - 1) = some (w.content.getLastD 'A') ∧
    (∀ (n : Nat) (last : Char) (remaining : Finset Char) (result : Solution),
      generateSolutionsRec lb (buildFilteredWordList dict lb) n last remaining result =
        generateSolutionsRecUnchecked lb (buildFilteredWordList dict lb) n last
          remaining result) := by
  have hcw := (mem_build_head lb dict c w h).1
  exact ⟨canMakeWord_length lb w.content hcw,
    opIndex_last w (canMakeWord_ne_nil lb w.content hcw),
    generateSolutionsRec_eq_unchecked lb _
      (fun c2 wd hwd => (mem_build_head lb dict c2 wd hwd).1)⟩

/-- C9 witness: the fixture catalog word `"ABCD"` instantiates the safety
statement. -/
theorem C9_chain_letter_access_safe_witness :
    ((⟨['A', 'B', 'C', 'D']⟩ : Word) ∈ buildFilteredWordList tinyDict tinyBox 'A') ∧
    (kMinWordLength ≤ (⟨['A', 'B', 'C', 'D']⟩ : Word).size ∧
      (⟨['A', 'B', 'C', 'D']⟩ : Word).opIndex
          (((⟨['A', 'B', 'C', 'D']⟩ : Word).size : Int) - 1) =
        some ((⟨['A', 'B', 'C', 'D']⟩ : Word).content.getLastD 'A') ∧
      (∀ (n : Nat) (last : Char) (remaining : Finset Char) (result : Solution),
        generateSolutionsRec tinyBox (buildFilteredWordList tinyDict tinyBox) n last
            remaining result =
          generateSolutionsRecUnchecked tinyBox (buildFilteredWordList tinyDict tinyBox)
            n last remaining result)) :=
  ⟨by decide, C9_chain_letter_access_safe tinyDict tinyBox 'A' _ (by decide)⟩

/-- C8: with the puzzle, catalog (with its per-letter iteration order) and
budget fixed, two runs of the full search — modelled as the branch threads
committing their appends in any two orders that each visit every puzzle
letter exactly once — produce the same set (indeed the same multiset) of
solutions, equal to the orchestrator's merged result. -/
theorem C8_search_run_deterministic (lb : LetterBox) (t : WordTable) (nWords : Nat)
    (order1 order2 : List Char)
    (h1 : order1.Nodup) (h1f : order1.toFinset = lb.letters)
    (h2 : order2.Nodup) (h2f : order2.toFinset = lb.letters) :
    (runSearch lb t nWords order1).toFinset = (runSearch lb t nWords order2).toFinset ∧
    (runSearch lb t nWords order1 : Multiset Solution) =
      (runSearch lb t nWords order2 : Multiset Solution) ∧
    (runSearch lb t nWords order1 : Multiset Solution) = generateSolutions lb nWords t := by
  have hperm : order1.Perm order2 :=
    List.perm_of_nodup_nodup_toFinset_eq h1 h2 (by rw [h1f, h2f])
  have hpermbind : (runSearch lb t nWords order1).Perm (runSearch lb t nWords order2) := by
    rw [runSearch, runSearch]
    exact hperm.flatMap_right _
  refine ⟨List.toFinset_eq_of_perm _ _ hpermbind, Multiset.coe_eq_coe.mpr hpermbind, ?_⟩
  have hval : lb.letters.val = (order1 : Multiset Char) := by
    rw [← h1f, List.toFinset_val, List.dedup_eq_self.mpr h1]
  rw [generateSolutions, hval, runSearch, Multiset.coe_bind]

/-- C8 witness: two opposite visit orders of the fixture puzzle's letters
yield the same solution set. -/
theorem C8_search_run_deterministic_witness :
    ((['A', 'B', 'C', 'D'] : List Char).Nodup ∧
      (['A', 'B', 'C', 'D'] : List Char).toFinset = tinyBox.letters ∧
      (['D', 'C', 'B', 'A'] : List Char).Nodup ∧
      (['D', 'C', 'B', 'A'] : List Char).toFinset = tinyBox.letters) ∧
    ((runSearch tinyBox (buildFilteredWordList tinyDict tinyBox) 1
        ['A', 'B', 'C', 'D']).toFinset =
      (runSearch tinyBox (buildFilteredWordList tinyDict tinyBox) 1
        ['D', 'C', 'B', 'A']).toFinset ∧
      (runSearch tinyBox (buildFilteredWordList tinyDict tinyBox) 1
          ['A', 'B', 'C', 'D'] : Multiset Solution) =
        (runSearch tinyBox (buildFilteredWordList tinyDict tinyBox) 1
          ['D', 'C', 'B', 'A'] : Multiset Solution) ∧
      (runSearch tinyBox (buildFilteredWordList tinyDict tinyBox) 1
          ['A', 'B', 'C', 'D'] : Multiset Solution) =
        generateSolutions tinyBox 1 (buildFilteredWordList tinyDict tinyBox)) :=
  ⟨⟨by decide, by decide, by decide, by decide⟩,
    C8_search_run_deterministic tinyBox (buildFilteredWordList tinyDict tinyBox) 1
      ['A', 'B', 'C', 'D'] ['D', 'C', 'B', 'A'] (by decide) (by decide) (by decide)
      (by decide)⟩

end LetterBoxed
